import Mathlib

/-!
Verification of the bit-reversal self-test harness (`sw/helloworld.c`).

The C program drives a memory-mapped bit-reversal accelerator: it pushes the
indices `0 .. N-1` into an `IN` register, then for each index busy-polls a
`STAT` register until bit 0 is set, pops one word from `OUT`, and compares it
against the software reference `reverse_bits_k`.  This file gives a shallow
embedding of the three functions of interest (`reverse_bits_k`, `isqrt`,
`bitrev_selftest`) and proves the stated properties about them.

Machine integers (`uint32_t`) are modelled as `Nat` with explicit `% 2 ^ 32`
reductions at every operation whose C result is truncated to 32 bits.
-/

set_option maxRecDepth 100000

/-- C source line 22: `#define K 10u` (transform bit width). -/
def K : Nat := 10

/-- C source line 23: `#define N (1u << K)` (1024-point frame). -/
def N : Nat := 1 <<< K

/-- C source lines 52-61: reverse the low `K` bits of `x` by the classic
mask-shift-merge passes on a 32-bit word, then shift the reversed word right
by `32 - K`.  Every intermediate assignment stores into a `uint32_t`, hence
the `% 2 ^ 32` truncations (only the `x <<< 16` pass can actually overflow,
because every other shifted operand is masked first). -/
def reverse_bits_k (x0 : Nat) : Nat :=
  let x := x0 % 2 ^ 32
  let x := (((x &&& 0x55555555) <<< 1) ||| ((x &&& 0xAAAAAAAA) >>> 1)) % 2 ^ 32
  let x := (((x &&& 0x33333333) <<< 2) ||| ((x &&& 0xCCCCCCCC) >>> 2)) % 2 ^ 32
  let x := (((x &&& 0x0F0F0F0F) <<< 4) ||| ((x &&& 0xF0F0F0F0) >>> 4)) % 2 ^ 32
  let x := (((x &&& 0x00FF00FF) <<< 8) ||| ((x &&& 0xFF00FF00) >>> 8)) % 2 ^ 32
  let x := ((x <<< 16) ||| (x >>> 16)) % 2 ^ 32
  x >>> (32 - K)

/-- C source line 39: the first loop of `isqrt`, `while (bit > n) bit >>= 2;`.
Shrinks `bit` by factors of 4 until it no longer exceeds `n`. -/
def isqrtShrink (n bit : Nat) : Nat :=
  if n < bit then isqrtShrink n (bit >>> 2) else bit
termination_by bit
decreasing_by
  omega

/-- C source lines 40-48: the main loop of `isqrt`.  The mutable locals
`n`, `res`, `bit` are threaded as arguments; `res + bit` and
`(res >> 1) + bit` are 32-bit additions, hence the truncations. -/
def isqrtLoop (n res bit : Nat) : Nat :=
  if bit = 0 then res
  else if (res + bit) % 2 ^ 32 ≤ n then
    isqrtLoop (n - (res + bit) % 2 ^ 32) (((res >>> 1) + bit) % 2 ^ 32) (bit >>> 2)
  else
    isqrtLoop n (res >>> 1) (bit >>> 2)
termination_by bit
decreasing_by
  · omega
  · omega

/-- C source lines 36-50: `isqrt(uint32_t n)`.  `res` starts at 0 and `bit`
at `1u << 30`; the argument is a `uint32_t`, hence the entry truncation. -/
def isqrt (n0 : Nat) : Nat :=
  let n := n0 % 2 ^ 32
  isqrtLoop n 0 (isqrtShrink n (1 <<< 30))

/-- One memory-mapped register access performed by the driver: a write to
`BITREV_IN`, a read of `BITREV_STAT` observing value `v`, or a read of
`BITREV_OUT` returning value `v` (source lines 18-20). -/
inductive Event where
  | writeIN (v : Nat)
  | readSTAT (v : Nat)
  | readOUT (v : Nat)
deriving DecidableEq

/-- One line of console output produced by `bitrev_selftest` (the `printf`
calls at source lines 65, 79, 86 and 88), with the formatted numbers kept
as fields. -/
inductive Line where
  | header
  | mismatch (i got exp : Nat)
  | passed (n : Nat)
  | failed (errors : Nat)
deriving DecidableEq

/-- The hardware side of the register protocol, left fully abstract:
`stat i t` is the value returned by the `t`-th read of `BITREV_STAT` while
the driver waits before the `i`-th pop, and `out i` is the value returned
by the `i`-th read of `BITREV_OUT`. -/
structure Env where
  stat : Nat → Nat → Nat
  out : Nat → Nat

/-- C source line 75: `while ((BITREV_STAT & 1u) == 0) ;`.  Reads `STAT`
until bit 0 is set and returns the list of observed reads; the C loop is
unbounded, so the model takes a poll budget `fuel` and returns `none` when
the hardware stays not-ready for that many reads. -/
def pollTrace (stat : Nat → Nat) : Nat → Option (List Event)
  | 0 => none
  | fuel + 1 =>
      if stat 0 &&& 1 = 0 then
        (pollTrace (fun t => stat (t + 1)) fuel).map (fun evs => Event.readSTAT (stat 0) :: evs)
      else
        some [Event.readSTAT (stat 0)]

/-- C source lines 74-83: the pull-and-verify loop, one step per remaining
index.  Returns the register-access trace, the diagnostic lines, and the
final value of `errors`; `none` if some busy-wait exceeds the poll budget. -/
def pullFrom (env : Env) (fuel : Nat) : List Nat → Nat → Option (List Event × List Line × Nat)
  | [], errors => some ([], [], errors)
  | i :: rest, errors =>
      match pollTrace (env.stat i) fuel with
      | none => none
      | some polls =>
          let sample := env.out i
          let expect := reverse_bits_k i
          let diag : List Line := if sample ≠ expect then [Line.mismatch i sample expect] else []
          let errors1 := if sample ≠ expect then errors + 1 else errors
          match pullFrom env fuel rest errors1 with
          | none => none
          | some (tr, lines, e) =>
              some (polls ++ (Event.readOUT sample :: tr), diag ++ lines, e)

/-- C source lines 63-91: `bitrev_selftest`.  Pushes `0 .. N-1` into `IN`,
runs the pull-and-verify loop, and emits the final verdict line.  The result
is the full register-access trace, the console lines in order, and the final
error tally. -/
def bitrev_selftest (env : Env) (fuel : Nat) : Option (List Event × List Line × Nat) :=
  match pullFrom env fuel (List.range N) 0 with
  | none => none
  | some (tr, lines, errors) =>
      some ((List.range N).map Event.writeIN ++ tr,
        Line.header :: (lines ++ [if errors = 0 then Line.passed N else Line.failed errors]),
        errors)

/-- C source lines 95-134: `main` runs the peripheral demos, then
`bitrev_selftest`, and returns 0 regardless of the self-test outcome
(line 133). -/
def main_result (env : Env) (fuel : Nat) : Nat :=
  let _run := bitrev_selftest env fuel
  0

/-- A hardware model that is always ready and answers every pop with the
correct bit-reversed value. -/
def env0 : Env where
  stat := fun _ _ => 1
  out := fun i => reverse_bits_k i

/-- A hardware model that answers every pop correctly except pop 5, for
which it returns 0 (the fault-injection scenario of the spec). -/
def env_fault : Env where
  stat := fun _ _ => 1
  out := fun i => if i = 5 then 0 else reverse_bits_k i

/-- The register trace of a run in which every `STAT` poll immediately
reads 1 and the `i`-th pop returns `out i`. -/
def immediateTrace (out : Nat → Nat) (l : List Nat) : List Event :=
  l.flatMap (fun i => [Event.readSTAT 1, Event.readOUT (out i)])

/-- The values written to `IN`, in trace order. -/
def writesIN : List Event → List Nat :=
  List.filterMap fun ev =>
    match ev with
    | Event.writeIN v => some v
    | _ => none

/-- Whether an event is a register read (of `STAT` or of `OUT`). -/
def isRead : Event → Bool := fun ev =>
  match ev with
  | Event.writeIN _ => false
  | _ => true

/-- Whether an event is a read of `OUT`. -/
def isReadOUT : Event → Bool := fun ev =>
  match ev with
  | Event.readOUT _ => true
  | _ => false

/-- Whether an event is a read of `STAT` that observed bit 0 set. -/
def isReadySTAT : Event → Bool := fun ev =>
  match ev with
  | Event.readSTAT w => decide (w &&& 1 ≠ 0)
  | _ => false

/-- Adjacent-pair discipline: whenever the second event of a pair is a read
of `OUT`, the first is a read of `STAT` that observed bit 0 set. -/
def okPair (a b : Event) : Prop :=
  (∃ v, b = Event.readOUT v) → ∃ w, a = Event.readSTAT w ∧ w &&& 1 ≠ 0

/-- A hardware model whose ready bit never rises. -/
def env_stuck : Env where
  stat := fun _ _ => 0
  out := fun _ => 0

/-- Bit-level characterization of `reverse_bits_k`: output bit `j` (for
`j < K`) is input bit `K - 1 - j`, for every input. -/
theorem reverse_bits_k_testBit (x : Nat) (j : Nat) (hj : j < 10) :
    (reverse_bits_k x).testBit j = x.testBit (9 - j) := by
  unfold reverse_bits_k
  interval_cases j <;>
  · simp [K, -Nat.reducePow]
    simp only [Nat.testBit_to_div_mod]
    simp

/-- The result of `reverse_bits_k` always fits in `K` bits (it is a 32-bit
word shifted right by `32 - K = 22`). -/
theorem reverse_bits_k_lt (x : Nat) : reverse_bits_k x < 2 ^ K := by
  unfold reverse_bits_k
  simp only [K]
  rw [Nat.shiftRight_eq_div_pow]
  apply Nat.div_lt_of_lt_mul
  calc _ % 2 ^ 32 < 2 ^ 32 := Nat.mod_lt _ (by norm_num)
    _ = 2 ^ (32 - 10) * 2 ^ 10 := by norm_num

/-- C2: for every `x` in `[0, 2^K)`, bit `j` of `reverse_bits_k x` is bit
`K - 1 - j` of `x` for `j < K`, all bits at positions `K` and above are zero,
and the known vectors `reverse_bits_k 1 = 512`, `reverse_bits_k 3 = 768` hold. -/
theorem reverse_bits_k_spec :
    (∀ x, x < 2 ^ K →
      (∀ j, j < K → (reverse_bits_k x).testBit j = x.testBit (K - 1 - j))
      ∧ (∀ j, K ≤ j → (reverse_bits_k x).testBit j = false))
    ∧ reverse_bits_k 1 = 512 ∧ reverse_bits_k 3 = 768 := by
  refine ⟨fun x _ => ⟨fun j hj => ?_, fun j hj => ?_⟩, by decide, by decide⟩
  · simpa [K] using reverse_bits_k_testBit x j (by simpa [K] using hj)
  · exact Nat.testBit_lt_two_pow
      (lt_of_lt_of_le (reverse_bits_k_lt x) (Nat.pow_le_pow_right (by norm_num) hj))

/-- Witness for C2 at `x = 1`, `j = 0` and `j = 10`. -/
theorem reverse_bits_k_spec_witness :
    1 < 2 ^ K ∧ (reverse_bits_k 1).testBit 0 = Nat.testBit 1 (K - 1 - 0)
      ∧ (reverse_bits_k 1).testBit 10 = false :=
  ⟨by decide, (reverse_bits_k_spec.1 1 (by decide)).1 0 (by decide),
    (reverse_bits_k_spec.1 1 (by decide)).2 10 (by decide)⟩

/-- C7: `reverse_bits_k` is an involution on `[0, 2^K)`, hence a bijection
of that interval onto itself. -/
theorem reverse_bits_k_involution :
    (∀ x, x < 2 ^ K → reverse_bits_k (reverse_bits_k x) = x)
    ∧ Set.BijOn reverse_bits_k (Set.Iio (2 ^ K)) (Set.Iio (2 ^ K)) := by
  have hinv : ∀ x, x < 2 ^ K → reverse_bits_k (reverse_bits_k x) = x := by decide
  refine ⟨hinv, fun x _ => Set.mem_Iio.mpr (reverse_bits_k_lt x),
    fun x hx y hy hxy => ?_, fun y hy => ?_⟩
  · rw [← hinv x (Set.mem_Iio.mp hx), ← hinv y (Set.mem_Iio.mp hy), hxy]
  · exact ⟨reverse_bits_k y, Set.mem_Iio.mpr (reverse_bits_k_lt y),
      hinv y (Set.mem_Iio.mp hy)⟩

/-- Witness for C7 at `x = 3`. -/
theorem reverse_bits_k_involution_witness :
    3 < 2 ^ K ∧ reverse_bits_k (reverse_bits_k 3) = 3 :=
  ⟨by decide, reverse_bits_k_involution.1 3 (by decide)⟩

/-- C8: for every 32-bit `x`, the bits above the low `K` bits have no effect
on `reverse_bits_k`, and the result is always below `2^K`. -/
theorem reverse_bits_k_high_bits_ignored (x : Nat) (_hx : x < 2 ^ 32) :
    reverse_bits_k x = reverse_bits_k (x % 2 ^ K) ∧ reverse_bits_k x < 2 ^ K := by
  refine ⟨Nat.eq_of_testBit_eq fun j => ?_, reverse_bits_k_lt x⟩
  rcases Nat.lt_or_ge j 10 with hj | hj
  · rw [reverse_bits_k_testBit x j hj, reverse_bits_k_testBit _ j hj]
    simp only [K, Nat.testBit_mod_two_pow]
    have : 9 - j < 10 := by omega
    simp [this]
  · have h1 := Nat.testBit_lt_two_pow
      (lt_of_lt_of_le (reverse_bits_k_lt x) (Nat.pow_le_pow_right (by norm_num) (by simpa [K] using hj)))
    have h2 := Nat.testBit_lt_two_pow
      (lt_of_lt_of_le (reverse_bits_k_lt (x % 2 ^ K)) (Nat.pow_le_pow_right (by norm_num) (by simpa [K] using hj)))
    rw [h1, h2]

/-- Witness for C8 at `x = 1025` (`= 2^K + 1`). -/
theorem reverse_bits_k_high_bits_ignored_witness :
    1025 < 2 ^ 32 ∧ reverse_bits_k 1025 = reverse_bits_k (1025 % 2 ^ K)
      ∧ reverse_bits_k 1025 < 2 ^ K :=
  ⟨by decide, reverse_bits_k_high_bits_ignored 1025 (by decide)⟩

/-- Pointwise view of `env0.stat`. -/
theorem env0_stat (i t : Nat) : env0.stat i t = 1 := rfl

/-- Pointwise view of `env0.out`. -/
theorem env0_out (i : Nat) : env0.out i = reverse_bits_k i := rfl

/-- Pointwise view of `env_fault.stat`. -/
theorem env_fault_stat (i t : Nat) : env_fault.stat i t = 1 := rfl

/-- Pointwise view of `env_fault.out`. -/
theorem env_fault_out (i : Nat) :
    env_fault.out i = if i = 5 then 0 else reverse_bits_k i := rfl

/-- Running the pull phase against `env0` with budget 1: one ready `STAT`
read and one correct pop per index, no diagnostics, tally unchanged. -/
theorem pullFrom_env0 (l : List Nat) (errors : Nat) :
    pullFrom env0 1 l errors = some (immediateTrace env0.out l, [], errors) := by
  induction l generalizing errors with
  | nil => simp [pullFrom, immediateTrace]
  | cons i rest ih =>
      simp [pullFrom, pollTrace, env0_stat, env0_out, ih, immediateTrace]

/-- The correct-hardware run: header line, `PASSED` verdict, no errors. -/
theorem bitrev_selftest_env0 :
    bitrev_selftest env0 1 =
      some ((List.range N).map Event.writeIN ++ immediateTrace env0.out (List.range N),
        [Line.header, Line.passed N], 0) := by
  simp [bitrev_selftest, pullFrom_env0]

/-- Running the pull phase against `env_fault` with budget 1: index 5 yields
a diagnostic and one extra error, every other index passes. -/
theorem pullFrom_env_fault (l : List Nat) (errors : Nat) :
    pullFrom env_fault 1 l errors =
      some (immediateTrace env_fault.out l,
        (l.filter (fun i => i = 5)).map (fun i => Line.mismatch i 0 (reverse_bits_k i)),
        errors + l.count 5) := by
  induction l generalizing errors with
  | nil => simp [pullFrom, immediateTrace]
  | cons i rest ih =>
      by_cases hi : i = 5
      · subst hi
        have h5 : reverse_bits_k 5 = 640 := by decide
        simp [pullFrom, pollTrace, env_fault_stat, env_fault_out, ih,
          immediateTrace, h5, List.count_cons]
        omega
      · simp [pullFrom, pollTrace, env_fault_stat, env_fault_out, ih,
          immediateTrace, hi, List.count_cons]
/-- Inversion principle for a completed self-test run: the result decomposes
into the push trace followed by the pull trace, the header line followed by
the diagnostics and the verdict line, and the final error tally. -/
theorem bitrev_selftest_inv (env : Env) (fuel : Nat)
    (tr : List Event) (lines : List Line) (e : Nat)
    (h : bitrev_selftest env fuel = some (tr, lines, e)) :
    ∃ ptr plines, pullFrom env fuel (List.range N) 0 = some (ptr, plines, e)
      ∧ tr = (List.range N).map Event.writeIN ++ ptr
      ∧ lines = Line.header :: (plines ++ [if e = 0 then Line.passed N else Line.failed e]) := by
  rw [bitrev_selftest] at h
  cases hp : pullFrom env fuel (List.range N) 0 with
  | none => rw [hp] at h; exact absurd h (by simp)
  | some r =>
      obtain ⟨ptr, plines, err⟩ := r
      rw [hp] at h
      simp only [Option.some.injEq, Prod.mk.injEq] at h
      obtain ⟨h1, h2, h3⟩ := h
      subst h3
      exact ⟨ptr, plines, rfl, h1.symm, h2.symm⟩

/-- Error accumulation along the pull-and-verify loop: the final tally is the
starting tally plus the number of indices in the remaining list whose popped
sample disagrees with the reference. -/
theorem pullFrom_errors (env : Env) (fuel : Nat) :
    ∀ (l : List Nat) (errors : Nat) (tr : List Event) (lines : List Line) (e : Nat),
      pullFrom env fuel l errors = some (tr, lines, e) →
      e = errors + l.countP (fun i => decide (env.out i ≠ reverse_bits_k i))
  | [], errors, tr, lines, e => by
      intro h
      simp only [pullFrom, Option.some.injEq, Prod.mk.injEq] at h
      simp [h.2.2.symm]
  | i :: rest, errors, tr, lines, e => by
      intro h
      rw [pullFrom] at h
      cases hp : pollTrace (env.stat i) fuel with
      | none => rw [hp] at h; exact absurd h (by simp)
      | some polls =>
          rw [hp] at h
          simp only at h
          cases hrec : pullFrom env fuel rest (if env.out i ≠ reverse_bits_k i then errors + 1 else errors) with
          | none => rw [hrec] at h; exact absurd h (by simp)
          | some r =>
              obtain ⟨tr', lines', e'⟩ := r
              rw [hrec] at h
              simp only [Option.some.injEq, Prod.mk.injEq] at h
              have he := pullFrom_errors env fuel rest _ _ _ _ hrec
              rw [← h.2.2, List.countP_cons]
              by_cases hi : env.out i = reverse_bits_k i <;>
                simp [hi] at he ⊢ <;> omega

/-- C1: for any hardware output model, the error tally at the end of the
pull-and-verify phase equals the number of indices `i < N` whose popped
sample differs from `reverse_bits_k i`; the count ranges over every index of
the frame exactly once, so a mismatch does not stop the loop. -/
theorem bitrev_selftest_error_count (env : Env) (fuel : Nat)
    (tr : List Event) (lines : List Line) (e : Nat)
    (h : bitrev_selftest env fuel = some (tr, lines, e)) :
    e = (List.range N).countP (fun i => decide (env.out i ≠ reverse_bits_k i)) := by
  obtain ⟨ptr, plines, hp, -, -⟩ := bitrev_selftest_inv env fuel tr lines e h
  simpa using pullFrom_errors env fuel (List.range N) 0 ptr plines e hp

/-- Witness for C1: the always-correct hardware model yields tally 0. -/
theorem bitrev_selftest_error_count_witness :
    bitrev_selftest env0 1 =
      some ((List.range N).map Event.writeIN ++ immediateTrace env0.out (List.range N),
        [Line.header, Line.passed N], 0)
    ∧ 0 = (List.range N).countP (fun i => decide (env0.out i ≠ reverse_bits_k i)) :=
  ⟨bitrev_selftest_env0,
    bitrev_selftest_error_count env0 1 _ _ 0 bitrev_selftest_env0⟩

/-- C3: the self-test reports success if and only if the tally is zero — the
last console line is `PASSED` naming the frame size exactly when `e = 0`,
otherwise it is `FAILED` naming the tally — and `main` returns 0 in both
cases, so no exit code distinguishes the outcomes. -/
theorem bitrev_selftest_verdict (env : Env) (fuel : Nat)
    (tr : List Event) (lines : List Line) (e : Nat)
    (h : bitrev_selftest env fuel = some (tr, lines, e)) :
    (lines.getLast? = some (Line.passed N) ↔ e = 0)
    ∧ (e ≠ 0 → lines.getLast? = some (Line.failed e))
    ∧ main_result env fuel = 0 := by
  obtain ⟨ptr, plines, -, -, hlines⟩ := bitrev_selftest_inv env fuel tr lines e h
  have hlast : lines.getLast? = some (if e = 0 then Line.passed N else Line.failed e) := by
    rw [hlines, ← List.cons_append, List.getLast?_concat]
  refine ⟨?_, fun he => by simp [hlast, he], rfl⟩
  by_cases he : e = 0
  · simp [hlast, he]
  · simp [hlast, he]

/-- Witness for C3 on the always-correct hardware model. -/
theorem bitrev_selftest_verdict_witness :
    bitrev_selftest env0 1 =
      some ((List.range N).map Event.writeIN ++ immediateTrace env0.out (List.range N),
        [Line.header, Line.passed N], 0)
    ∧ (([Line.header, Line.passed N].getLast? = some (Line.passed N) ↔ (0 : Nat) = 0)
      ∧ ((0 : Nat) ≠ 0 → [Line.header, Line.passed N].getLast? = some (Line.failed 0))
      ∧ main_result env0 1 = 0) :=
  ⟨bitrev_selftest_env0,
    bitrev_selftest_verdict env0 1 _ _ 0 bitrev_selftest_env0⟩

/-- C9: against the hardware model that answers pop 5 with the wrong value 0
and every other pop correctly, the self-test records exactly one mismatch,
prints exactly one diagnostic naming index 5 with got 0 and the expected
value `reverse_bits_k 5`, and ends with the `FAILED (1 errors)` verdict. -/
theorem bitrev_selftest_fault_injection :
    bitrev_selftest env_fault 1 =
      some ((List.range N).map Event.writeIN ++ immediateTrace env_fault.out (List.range N),
        [Line.header, Line.mismatch 5 0 (reverse_bits_k 5), Line.failed 1], 1) := by
  have hmem : 5 ∈ List.range N := List.mem_range.mpr (by decide)
  have hcount : (List.range N).count 5 = 1 :=
    List.count_eq_one_of_mem (List.nodup_range N) hmem
  have hfilter : (List.range N).filter (fun i => i = 5) = [5] := by
    rw [List.filter_eq, hcount]
    rfl
  simp [bitrev_selftest, pullFrom_env_fault, hfilter, hcount]

/-- A successful busy-wait reads `STAT` one or more times: every read but
the last observes bit 0 clear, and the last observes it set. -/
theorem pollTrace_shape (stat : Nat → Nat) (fuel : Nat) (pe : List Event)
    (h : pollTrace stat fuel = some pe) :
    ∃ (ts : List Nat) (w : Nat), pe = ts.map Event.readSTAT ++ [Event.readSTAT w]
      ∧ (∀ u ∈ ts, u &&& 1 = 0) ∧ w &&& 1 ≠ 0 := by
  induction fuel generalizing stat pe with
  | zero => exact absurd h (by simp [pollTrace])
  | succ fuel ih =>
      rw [pollTrace] at h
      by_cases h0 : stat 0 &&& 1 = 0
      · rw [if_pos h0] at h
        cases hp : pollTrace (fun t => stat (t + 1)) fuel with
        | none => rw [hp] at h; exact absurd h (by simp)
        | some pe' =>
            rw [hp] at h
            simp only [Option.map_some', Option.some.injEq] at h
            obtain ⟨ts, w, hpe, hts, hw⟩ := ih _ _ hp
            refine ⟨stat 0 :: ts, w, ?_, ?_, hw⟩
            · simp [← h, hpe]
            · intro u hu
              rcases List.mem_cons.mp hu with rfl | hu'
              · exact h0
              · exact hts u hu'
      · rw [if_neg h0] at h
        simp only [Option.some.injEq] at h
        exact ⟨[], stat 0, by simp [← h], by simp, h0⟩

/-- A list with no `OUT` reads satisfies the pair discipline vacuously. -/
theorem chain'_okPair_of_no_out (l : List Event)
    (hl : ∀ ev ∈ l, isReadOUT ev = false) : List.Chain' okPair l := by
  induction l with
  | nil => exact List.chain'_nil
  | cons a l ih =>
      rw [List.chain'_cons']
      refine ⟨fun y hy => ?_, ih fun ev hev => hl ev (List.mem_cons_of_mem a hev)⟩
      intro ⟨v, hv⟩
      have := hl y (List.mem_cons_of_mem a (List.mem_of_mem_head? hy))
      rw [hv] at this
      exact absurd this (by simp [isReadOUT])

/-- Shape of the pull-phase trace: it contains only reads, it never starts
with an `OUT` read, adjacent pairs obey the ready-before-pop discipline, and
it contains exactly one `OUT` read and one ready `STAT` observation per
remaining index. -/
theorem pullFrom_trace_shape (env : Env) (fuel : Nat) :
    ∀ (l : List Nat) (errors : Nat) (tr : List Event) (lines : List Line) (e : Nat),
      pullFrom env fuel l errors = some (tr, lines, e) →
      (∀ ev ∈ tr, isRead ev = true)
      ∧ (∀ v, tr.head? ≠ some (Event.readOUT v))
      ∧ List.Chain' okPair tr
      ∧ tr.countP isReadOUT = l.length
      ∧ tr.countP isReadySTAT = l.length
  | [], errors, tr, lines, e => by
      intro h
      simp only [pullFrom, Option.some.injEq, Prod.mk.injEq] at h
      rw [← h.1]
      simp
  | i :: rest, errors, tr, lines, e => by
      intro h
      rw [pullFrom] at h
      cases hp : pollTrace (env.stat i) fuel with
      | none => rw [hp] at h; exact absurd h (by simp)
      | some polls =>
          rw [hp] at h
          simp only at h
          cases hrec : pullFrom env fuel rest (if env.out i ≠ reverse_bits_k i then errors + 1 else errors) with
          | none => rw [hrec] at h; exact absurd h (by simp)
          | some r =>
              obtain ⟨tr', lines', e'⟩ := r
              rw [hrec] at h
              simp only [Option.some.injEq, Prod.mk.injEq] at h
              obtain ⟨ts, w, hpe, hts, hw⟩ := pollTrace_shape _ _ _ hp
              obtain ⟨ihread, ihhead, ihchain, ihout, ihready⟩ :=
                pullFrom_trace_shape env fuel rest _ tr' lines' e' hrec
              rw [← h.1, hpe]
              refine ⟨?_, ?_, ?_, ?_, ?_⟩
              · intro ev hev
                rcases List.mem_append.mp hev with hev | hev
                · rcases List.mem_append.mp hev with hev | hev
                  · obtain ⟨u, -, rfl⟩ := List.mem_map.mp hev
                    rfl
                  · rw [List.mem_singleton.mp hev]; rfl
                · rcases List.mem_cons.mp hev with rfl | hev
                  · rfl
                  · exact ihread ev hev
              · intro v
                cases ts with
                | nil => simp
                | cons u ts' => simp
              · rw [List.append_assoc]
                rw [List.chain'_append]
                refine ⟨chain'_okPair_of_no_out _ ?_, ?_, ?_⟩
                · intro ev hev
                  obtain ⟨u, -, rfl⟩ := List.mem_map.mp hev
                  rfl
                · rw [List.singleton_append, List.chain'_cons, List.chain'_cons']
                  refine ⟨fun _ => ⟨w, rfl, hw⟩, fun y hy => ?_, ihchain⟩
                  intro ⟨v, hv⟩
                  exact absurd (hv ▸ hy) (ihhead v)
                · intro x hx y hy
                  intro ⟨v, hv⟩
                  rw [List.singleton_append, List.head?_cons, Option.mem_def,
                    Option.some.injEq] at hy
                  rw [hv] at hy
                  exact absurd hy (by simp)
              · rw [List.countP_append, List.countP_append, List.countP_cons]
                have h1 : List.countP isReadOUT (ts.map Event.readSTAT) = 0 := by
                  rw [List.countP_eq_zero]
                  intro ev hev
                  obtain ⟨u, -, rfl⟩ := List.mem_map.mp hev
                  simp [isReadOUT]
                simp [h1, isReadOUT, ihout, List.length_cons]
              · rw [List.countP_append, List.countP_append, List.countP_cons]
                have h1 : List.countP (fun u => isReadySTAT (Event.readSTAT u)) ts = 0 := by
                  rw [List.countP_eq_zero]
                  intro u hu
                  simp [isReadySTAT, hts u hu]
                have h2 : isReadySTAT (Event.readSTAT w) = true := by
                  simp only [isReadySTAT, decide_eq_true_eq]
                  exact hw
                have h3 : isReadySTAT (Event.readOUT (env.out i)) = false := rfl
                simp [List.countP_cons, h2, h3, ihready]
                have h1c : List.countP (isReadySTAT ∘ Event.readSTAT) ts = 0 := h1
                omega

/-- Extracting the written values from a pure push trace gives back the
pushed list. -/
theorem writesIN_map_writeIN (l : List Nat) : writesIN (l.map Event.writeIN) = l := by
  induction l with
  | nil => rfl
  | cons a l ih => simpa [writesIN, List.filterMap_cons] using ih

/-- C4: the values written to `IN` over a completed run are exactly
`0, 1, .., N-1` in order, and the whole trace is those `N` writes followed
by a read-only suffix: no read of `OUT` or `STAT` precedes or interleaves
the push phase. -/
theorem bitrev_selftest_push_order (env : Env) (fuel : Nat)
    (tr : List Event) (lines : List Line) (e : Nat)
    (h : bitrev_selftest env fuel = some (tr, lines, e)) :
    writesIN tr = List.range N
    ∧ ∃ rest, tr = (List.range N).map Event.writeIN ++ rest
      ∧ ∀ ev ∈ rest, isRead ev = true := by
  obtain ⟨ptr, plines, hp, htr, -⟩ := bitrev_selftest_inv env fuel tr lines e h
  obtain ⟨hread, -, -, -, -⟩ :=
    pullFrom_trace_shape env fuel (List.range N) 0 ptr plines e hp
  refine ⟨?_, ptr, htr, hread⟩
  rw [htr, writesIN, List.filterMap_append]
  have h1 : List.filterMap
      (fun ev => match ev with | Event.writeIN v => some v | _ => none) ptr = [] := by
    rw [List.filterMap_eq_nil_iff]
    intro ev hev
    cases ev with
    | writeIN v => exact absurd (hread _ hev) (by simp [isRead])
    | readSTAT v => rfl
    | readOUT v => rfl
  rw [h1, List.append_nil]
  exact writesIN_map_writeIN (List.range N)

/-- Witness for C4 on the always-correct hardware model. -/
theorem bitrev_selftest_push_order_witness :
    bitrev_selftest env0 1 =
      some ((List.range N).map Event.writeIN ++ immediateTrace env0.out (List.range N),
        [Line.header, Line.passed N], 0)
    ∧ (writesIN ((List.range N).map Event.writeIN ++ immediateTrace env0.out (List.range N))
        = List.range N
      ∧ ∃ rest, (List.range N).map Event.writeIN ++ immediateTrace env0.out (List.range N)
          = (List.range N).map Event.writeIN ++ rest
        ∧ ∀ ev ∈ rest, isRead ev = true) :=
  ⟨bitrev_selftest_env0,
    bitrev_selftest_push_order env0 1 _ _ 0 bitrev_selftest_env0⟩

/-- C5: over a completed run, every read of `OUT` is immediately preceded by
a read of `STAT` that observed bit 0 set (and no read of `OUT` can open the
trace), and the trace contains exactly `N` reads of `OUT` and exactly `N`
ready observations of `STAT` — one pop per ready observation. -/
theorem bitrev_selftest_out_guarded (env : Env) (fuel : Nat)
    (tr : List Event) (lines : List Line) (e : Nat)
    (h : bitrev_selftest env fuel = some (tr, lines, e)) :
    List.Chain' okPair tr
    ∧ (∀ v, tr.head? ≠ some (Event.readOUT v))
    ∧ tr.countP isReadOUT = N
    ∧ tr.countP isReadySTAT = N := by
  obtain ⟨ptr, plines, hp, htr, -⟩ := bitrev_selftest_inv env fuel tr lines e h
  obtain ⟨hread, hhead, hchain, hout, hready⟩ :=
    pullFrom_trace_shape env fuel (List.range N) 0 ptr plines e hp
  have hpushOUT : List.countP isReadOUT ((List.range N).map Event.writeIN) = 0 := by
    rw [List.countP_eq_zero]
    intro ev hev
    obtain ⟨u, -, rfl⟩ := List.mem_map.mp hev
    simp [isReadOUT]
  have hpushREADY : List.countP isReadySTAT ((List.range N).map Event.writeIN) = 0 := by
    rw [List.countP_eq_zero]
    intro ev hev
    obtain ⟨u, -, rfl⟩ := List.mem_map.mp hev
    simp [isReadySTAT]
  refine ⟨?_, ?_, ?_, ?_⟩
  · rw [htr, List.chain'_append]
    refine ⟨chain'_okPair_of_no_out _ ?_, hchain, ?_⟩
    · intro ev hev
      obtain ⟨u, -, rfl⟩ := List.mem_map.mp hev
      rfl
    · intro x hx y hy
      intro ⟨v, hv⟩
      exact absurd (hv ▸ hy) (hhead v)
  · intro v
    have hpush : ((List.range N).map Event.writeIN).head? = some (Event.writeIN 0) := by
      decide
    rw [htr, List.head?_append, hpush]
    simp
  · rw [htr, List.countP_append, hpushOUT, hout, List.length_range, Nat.zero_add]
  · rw [htr, List.countP_append, hpushREADY, hready, List.length_range, Nat.zero_add]

/-- Witness for C5 on the always-correct hardware model. -/
theorem bitrev_selftest_out_guarded_witness :
    bitrev_selftest env0 1 =
      some ((List.range N).map Event.writeIN ++ immediateTrace env0.out (List.range N),
        [Line.header, Line.passed N], 0)
    ∧ (List.Chain' okPair
        ((List.range N).map Event.writeIN ++ immediateTrace env0.out (List.range N))
      ∧ (∀ v, ((List.range N).map Event.writeIN
          ++ immediateTrace env0.out (List.range N)).head? ≠ some (Event.readOUT v))
      ∧ ((List.range N).map Event.writeIN
          ++ immediateTrace env0.out (List.range N)).countP isReadOUT = N
      ∧ ((List.range N).map Event.writeIN
          ++ immediateTrace env0.out (List.range N)).countP isReadySTAT = N) :=
  ⟨bitrev_selftest_env0,
    bitrev_selftest_out_guarded env0 1 _ _ 0 bitrev_selftest_env0⟩

/-- The busy-wait completes within `fuel` reads exactly when some read among
the first `fuel` observes bit 0 set. -/
theorem pollTrace_isSome (fuel : Nat) :
    ∀ stat : Nat → Nat,
      (pollTrace stat fuel).isSome = true ↔ ∃ t, t < fuel ∧ stat t &&& 1 ≠ 0 := by
  induction fuel with
  | zero => intro stat; simp [pollTrace]
  | succ fuel ih =>
      intro stat
      rw [pollTrace]
      by_cases h0 : stat 0 &&& 1 = 0
      · rw [if_pos h0]
        rw [Option.isSome_map']
        rw [ih]
        constructor
        · intro ⟨t, ht, hready⟩
          exact ⟨t + 1, by omega, hready⟩
        · intro ⟨t, ht, hready⟩
          cases t with
          | zero => exact absurd h0 hready
          | succ t' => exact ⟨t', by omega, hready⟩
      · rw [if_neg h0]
        simp only [Option.isSome_some, true_iff]
        exact ⟨0, by omega, h0⟩

/-- The pull phase completes exactly when every remaining index's busy-wait
completes within the poll budget. -/
theorem pullFrom_isSome (env : Env) (fuel : Nat) :
    ∀ (l : List Nat) (errors : Nat),
      (pullFrom env fuel l errors).isSome = true
        ↔ ∀ i ∈ l, (pollTrace (env.stat i) fuel).isSome = true
  | [], errors => by simp [pullFrom]
  | i :: rest, errors => by
      rw [pullFrom]
      cases hp : pollTrace (env.stat i) fuel with
      | none =>
          simp only [Option.isSome_none, Bool.false_eq_true, false_iff]
          intro hall
          have := hall i (List.mem_cons_self i rest)
          rw [hp] at this
          exact absurd this (by simp)
      | some polls =>
          simp only
          cases hrec : pullFrom env fuel rest (if env.out i ≠ reverse_bits_k i then errors + 1 else errors) with
          | none =>
              have hr := (pullFrom_isSome env fuel rest
                (if env.out i ≠ reverse_bits_k i then errors + 1 else errors)).symm
              rw [hrec] at hr
              simp only [Option.isSome_none, Bool.false_eq_true, iff_false] at hr
              simp only [Option.isSome_none, Bool.false_eq_true, false_iff]
              intro hall
              exact hr fun j hj => hall j (List.mem_cons_of_mem i hj)
          | some r =>
              obtain ⟨tr', lines', e'⟩ := r
              have hr := pullFrom_isSome env fuel rest
                (if env.out i ≠ reverse_bits_k i then errors + 1 else errors)
              rw [hrec] at hr
              simp only [Option.isSome_some, true_iff] at hr
              simp only [Option.isSome_some, true_iff]
              intro j hj
              rcases List.mem_cons.mp hj with rfl | hj'
              · rw [hp]; rfl
              · exact hr j hj'

/-- The self-test completes exactly when its pull phase completes. -/
theorem bitrev_selftest_isSome (env : Env) (fuel : Nat) :
    (bitrev_selftest env fuel).isSome = (pullFrom env fuel (List.range N) 0).isSome := by
  rw [bitrev_selftest]
  cases hp : pullFrom env fuel (List.range N) 0 with
  | none => rfl
  | some r => obtain ⟨tr, lines, e⟩ := r; rfl

/-- C6: if for every index of the frame some `STAT` read eventually shows
bit 0 set, the self-test terminates (a finite poll budget suffices); and if
the hardware never sets the ready bit for some index of the frame, no poll
budget completes the run — the driver spins forever, there being no timeout
or cancellation path. -/
theorem bitrev_selftest_termination (env : Env) :
    ((∀ i, i < N → ∃ t, env.stat i t &&& 1 ≠ 0) →
      ∃ fuel, (bitrev_selftest env fuel).isSome = true)
    ∧ (∀ i, i < N → (∀ t, env.stat i t &&& 1 = 0) →
      ∀ fuel, bitrev_selftest env fuel = none) := by
  constructor
  · intro h
    have hdec : ∀ i (hi : i < N), ∃ t, env.stat i t &&& 1 ≠ 0 := fun i hi => h i hi
    classical
    refine ⟨(Finset.range N).sup
      (fun i => if hi : i < N then Nat.find (hdec i hi) + 1 else 0), ?_⟩
    rw [bitrev_selftest_isSome, pullFrom_isSome]
    intro i hi
    have hiN : i < N := List.mem_range.mp hi
    rw [pollTrace_isSome]
    refine ⟨Nat.find (hdec i hiN), ?_, Nat.find_spec (hdec i hiN)⟩
    have hle : Nat.find (hdec i hiN) + 1 ≤ (Finset.range N).sup
        (fun i => if hi : i < N then Nat.find (hdec i hi) + 1 else 0) := by
      have hs := Finset.le_sup (f := fun i => if hi : i < N then Nat.find (hdec i hi) + 1 else 0)
        (Finset.mem_range.mpr hiN)
      simpa [hiN] using hs
    omega
  · intro i hiN hstuck fuel
    have hnone : ¬(pollTrace (env.stat i) fuel).isSome = true := by
      rw [pollTrace_isSome]
      rintro ⟨t, -, hready⟩
      exact hready (hstuck t)
    have hmain : ¬(bitrev_selftest env fuel).isSome = true := by
      intro hsome
      rw [bitrev_selftest_isSome, pullFrom_isSome] at hsome
      exact hnone (hsome i (List.mem_range.mpr hiN))
    exact Option.not_isSome_iff_eq_none.mp hmain

/-- Pointwise view of `env_stuck.stat`. -/
theorem env_stuck_stat (i t : Nat) : env_stuck.stat i t = 0 := rfl

/-- Witness for C6: `env0` is eventually ready for every index, so some
budget completes the run; `env_stuck` is never ready, so every budget
(here 7) returns `none`. -/
theorem bitrev_selftest_termination_witness :
    (∀ i, i < N → ∃ t, env0.stat i t &&& 1 ≠ 0)
    ∧ (∃ fuel, (bitrev_selftest env0 fuel).isSome = true)
    ∧ (0 < N ∧ (∀ t, env_stuck.stat 0 t &&& 1 = 0) ∧ bitrev_selftest env_stuck 7 = none) :=
  ⟨fun i _ => ⟨0, by simp [env0_stat]⟩,
    (bitrev_selftest_termination env0).1 (fun i _ => ⟨0, by simp [env0_stat]⟩),
    by decide, fun t => by simp [env_stuck_stat],
    (bitrev_selftest_termination env_stuck).2 0 (by decide)
      (fun t => by simp [env_stuck_stat]) 7⟩

/-- The first `isqrt` loop: starting from `bit = 4 ^ M` with `n < 4 ^ (M+1)`,
it either returns 0 (and then `n = 0`), or returns a power `4 ^ m ≤ n` with
`n < 4 ^ (m+1)`. -/
theorem isqrtShrink_spec : ∀ (M n : Nat), n < 4 ^ (M + 1) →
    (n = 0 ∧ isqrtShrink n (4 ^ M) = 0)
    ∨ ∃ m, m ≤ M ∧ isqrtShrink n (4 ^ M) = 4 ^ m ∧ 4 ^ m ≤ n ∧ n < 4 ^ (m + 1)
  | 0, n, hn => by
      by_cases h : n < 4 ^ 0
      · have hn0 : n = 0 := by simpa using h
        subst hn0
        left
        exact ⟨rfl, by simp [isqrtShrink]⟩
      · right
        refine ⟨0, Nat.le_refl 0, ?_, by omega, hn⟩
        rw [isqrtShrink, if_neg h]
  | M + 1, n, hn => by
      by_cases h : n < 4 ^ (M + 1)
      · have hshift : 4 ^ (M + 1) >>> 2 = 4 ^ M := by
          rw [Nat.shiftRight_eq_div_pow, pow_succ]
          omega
        have hstep : isqrtShrink n (4 ^ (M + 1)) = isqrtShrink n (4 ^ M) := by
          rw [isqrtShrink, if_pos h, hshift]
        rcases isqrtShrink_spec M n h with ⟨hn0, hres⟩ | ⟨m, hm, hres, hlow, hhigh⟩
        · exact Or.inl ⟨hn0, by rw [hstep]; exact hres⟩
        · exact Or.inr ⟨m, Nat.le_succ_of_le hm, by rw [hstep]; exact hres, hlow, hhigh⟩
      · right
        refine ⟨M + 1, Nat.le_refl _, ?_, by omega, hn⟩
        rw [isqrtShrink, if_neg h]

/-- Invariant of the second `isqrt` loop.  At a state reached with
`bit = 4 ^ m`, the partial root `s` (all bits above position `m`) satisfies
`res = s * 2 ^ (m+1)`, `n = n0 - s * s`, `s * s ≤ n0 < (s + 2 ^ (m+1))^2`;
the loop then returns the floor square root of `n0`.  The `% 2 ^ 32`
truncations are shown to be the identity along the way, so the 32-bit
arithmetic of the C code never wraps. -/
theorem isqrtLoop_spec : ∀ (m : Nat), m ≤ 15 → ∀ (n0 s : Nat), s % 2 ^ (m + 1) = 0 →
    s * s ≤ n0 → n0 < (s + 2 ^ (m + 1)) * (s + 2 ^ (m + 1)) → n0 < 2 ^ 32 →
    ∃ r, isqrtLoop (n0 - s * s) (s * 2 ^ (m + 1)) (4 ^ m) = r
      ∧ r * r ≤ n0 ∧ n0 < (r + 1) * (r + 1) := by
  intro m
  induction m with
  | zero =>
      intro _ n0 s _hdiv hss hub h32
      have hs16 : s < 2 ^ 16 := by
        by_contra hge
        push_neg at hge
        have hq : 2 ^ 16 * 2 ^ 16 ≤ s * s := Nat.mul_le_mul hge hge
        have hq2 : (2:Nat) ^ 16 * 2 ^ 16 = 2 ^ 32 := by norm_num
        omega
      have he1 : (2:Nat) ^ (0 + 1) = 2 := rfl
      rw [he1] at hub
      rw [he1, pow_zero]
      have hmod : (s * 2 + 1) % 2 ^ 32 = s * 2 + 1 := Nat.mod_eq_of_lt (by omega)
      rw [isqrtLoop, if_neg (by omega : ¬(1 = 0)), hmod]
      have hsh : (s * 2) >>> 1 = s := by
        rw [Nat.shiftRight_eq_div_pow]
        omega
      have hsh2 : (1:Nat) >>> 2 = 0 := by decide
      by_cases hc : s * 2 + 1 ≤ n0 - s * s
      · rw [if_pos hc, hsh, hsh2]
        have hmod2 : (s + 1) % 2 ^ 32 = s + 1 := Nat.mod_eq_of_lt (by omega)
        rw [hmod2, isqrtLoop, if_pos rfl]
        refine ⟨s + 1, rfl, ?_, ?_⟩
        · have hq : (s + 1) * (s + 1) = s * s + (s * 2 + 1) := by ring
          omega
        · have hq : (s + 1 + 1) * (s + 1 + 1) = (s + 2) * (s + 2) := by ring
          omega
      · rw [if_neg hc, hsh, hsh2, isqrtLoop, if_pos rfl]
        refine ⟨s, rfl, hss, ?_⟩
        have hq : (s + 1) * (s + 1) = s * s + (s * 2 + 1) := by ring
        omega
  | succ m ih =>
      intro hm15 n0 s hdiv hss hub h32
      have ihm : m ≤ 15 := by omega
      have hb2 : (2:Nat) ≤ 2 ^ (m + 1) := by
        calc (2:Nat) = 2 ^ 1 := rfl
          _ ≤ 2 ^ (m + 1) := Nat.pow_le_pow_right (by omega) (by omega)
      have hb15 : (2:Nat) ^ (m + 1) ≤ 2 ^ 15 := Nat.pow_le_pow_right (by omega) (by omega)
      have hs16 : s < 2 ^ 16 := by
        by_contra hge
        push_neg at hge
        have hq : 2 ^ 16 * 2 ^ 16 ≤ s * s := Nat.mul_le_mul hge hge
        have hq2 : (2:Nat) ^ 16 * 2 ^ 16 = 2 ^ 32 := by norm_num
        omega
      have hpow2 : (2:Nat) ^ (m + 1 + 1) = 2 ^ (m + 1) * 2 := pow_succ 2 (m + 1)
      have hpow4 : (4:Nat) ^ (m + 1) = 2 ^ (m + 1) * 2 ^ (m + 1) := by
        rw [show (4:Nat) = 2 * 2 from rfl, mul_pow]
      have hdvds : (2:Nat) ^ (m + 1 + 1) ∣ s := Nat.dvd_of_mod_eq_zero hdiv
      have hdvd16 : (2:Nat) ^ (m + 1 + 1) ∣ 2 ^ 16 := pow_dvd_pow 2 (by omega)
      have hsle : s + 2 ^ (m + 1 + 1) ≤ 2 ^ 16 := by
        have hp : 0 < 2 ^ 16 - s := by omega
        have hd := Nat.le_of_dvd hp (Nat.dvd_sub' hdvd16 hdvds)
        omega
      have hsum_lt : s * 2 ^ (m + 1 + 1) + 4 ^ (m + 1) < 2 ^ 32 := by
        have h1 : s * 2 ^ (m + 1 + 1) + 4 ^ (m + 1)
            ≤ (s + 2 ^ (m + 1)) * (s + 2 ^ (m + 1)) := by
          rw [hpow2, hpow4]
          nlinarith
        have h2 : s + 2 ^ (m + 1) ≤ 2 ^ 16 - 2 := by
          rw [hpow2] at hsle
          omega
        have h3 : (s + 2 ^ (m + 1)) * (s + 2 ^ (m + 1)) ≤ (2 ^ 16 - 2) * (2 ^ 16 - 2) :=
          Nat.mul_le_mul h2 h2
        have h4 : ((2:Nat) ^ 16 - 2) * (2 ^ 16 - 2) < 2 ^ 32 := by norm_num
        omega
      have hmod : (s * 2 ^ (m + 1 + 1) + 4 ^ (m + 1)) % 2 ^ 32
          = s * 2 ^ (m + 1 + 1) + 4 ^ (m + 1) := Nat.mod_eq_of_lt hsum_lt
      have hbitpos : ¬((4:Nat) ^ (m + 1) = 0) := by positivity
      have hres1 : (s * 2 ^ (m + 1 + 1)) >>> 1 = s * 2 ^ (m + 1) := by
        rw [hpow2, Nat.shiftRight_eq_div_pow]
        have hx : s * (2 ^ (m + 1) * 2) = s * 2 ^ (m + 1) * 2 := by ring
        rw [hx]
        omega
      have hbit : ((4:Nat) ^ (m + 1)) >>> 2 = 4 ^ m := by
        rw [pow_succ, Nat.shiftRight_eq_div_pow]
        omega
      rw [isqrtLoop, if_neg hbitpos, hmod]
      by_cases hc : s * 2 ^ (m + 1 + 1) + 4 ^ (m + 1) ≤ n0 - s * s
      · rw [if_pos hc, hres1, hbit]
        have hnr_lt : s * 2 ^ (m + 1) + 4 ^ (m + 1) < 2 ^ 32 := by
          have hx : s * 2 ^ (m + 1) + 4 ^ (m + 1) ≤ s * 2 ^ (m + 1 + 1) + 4 ^ (m + 1) := by
            rw [hpow2]
            nlinarith
          omega
        have hnr : (s * 2 ^ (m + 1) + 4 ^ (m + 1)) % 2 ^ 32
            = (s + 2 ^ (m + 1)) * 2 ^ (m + 1) := by
          rw [Nat.mod_eq_of_lt hnr_lt, hpow4]
          ring
        rw [hnr]
        have hsq : (s + 2 ^ (m + 1)) * (s + 2 ^ (m + 1))
            = s * s + (s * 2 ^ (m + 1 + 1) + 4 ^ (m + 1)) := by
          rw [hpow2, hpow4]
          ring
        have hnn : n0 - s * s - (s * 2 ^ (m + 1 + 1) + 4 ^ (m + 1))
            = n0 - (s + 2 ^ (m + 1)) * (s + 2 ^ (m + 1)) := by
          omega
        rw [hnn]
        have hdiv' : (s + 2 ^ (m + 1)) % 2 ^ (m + 1) = 0 := by
          rcases hdvds with ⟨t, ht⟩
          rw [ht, hpow2]
          have hx : 2 ^ (m + 1) * 2 * t + 2 ^ (m + 1) = 2 ^ (m + 1) * (2 * t + 1) := by ring
          rw [hx]
          exact Nat.mul_mod_right _ _
        have hss' : (s + 2 ^ (m + 1)) * (s + 2 ^ (m + 1)) ≤ n0 := by
          omega
        have hub' : n0 < (s + 2 ^ (m + 1) + 2 ^ (m + 1)) * (s + 2 ^ (m + 1) + 2 ^ (m + 1)) := by
          have hx : s + 2 ^ (m + 1) + 2 ^ (m + 1) = s + 2 ^ (m + 1 + 1) := by
            rw [hpow2]
            ring
          rw [hx]
          exact hub
        exact ih ihm n0 (s + 2 ^ (m + 1)) hdiv' hss' hub' h32
      · rw [if_neg hc, hres1, hbit]
        have hdiv' : s % 2 ^ (m + 1) = 0 := by
          rcases hdvds with ⟨t, ht⟩
          rw [ht, hpow2]
          have hx : 2 ^ (m + 1) * 2 * t = 2 ^ (m + 1) * (2 * t) := by ring
          rw [hx]
          exact Nat.mul_mod_right _ _
        have hub' : n0 < (s + 2 ^ (m + 1)) * (s + 2 ^ (m + 1)) := by
          have hsq : (s + 2 ^ (m + 1)) * (s + 2 ^ (m + 1))
              = s * s + (s * 2 ^ (m + 1 + 1) + 4 ^ (m + 1)) := by
            rw [hpow2, hpow4]
            ring
          omega
        exact ih ihm n0 s hdiv' hss hub' h32

/-- C10: for every 32-bit `n`, `isqrt n` is the integer floor of the square
root of `n`: its square is at most `n` and the next square exceeds `n`.
(The Lean model of `isqrt` is a total function — both loops terminate because
`bit` strictly shrinks — which reflects the termination of the C loops.) -/
theorem isqrt_spec (n : Nat) (hn : n < 2 ^ 32) :
    isqrt n * isqrt n ≤ n ∧ n < (isqrt n + 1) * (isqrt n + 1) := by
  have hmod : n % 2 ^ 32 = n := Nat.mod_eq_of_lt hn
  have hshl : (1:Nat) <<< 30 = 4 ^ 15 := by decide
  have hisqrt : isqrt n = isqrtLoop n 0 (isqrtShrink n (4 ^ 15)) := by
    simp only [isqrt]
    rw [hmod, hshl]
  have hn16 : n < 4 ^ (15 + 1) := by
    have : (4:Nat) ^ (15 + 1) = 2 ^ 32 := by norm_num
    omega
  have hp4 : ∀ k : Nat, (2:Nat) ^ (k + 1) * 2 ^ (k + 1) = 4 ^ (k + 1) := by
    intro k
    rw [show (4:Nat) = 2 * 2 from rfl, mul_pow]
  rcases isqrtShrink_spec 15 n hn16 with ⟨hn0, hsh⟩ | ⟨m, hm, hsh, -, hhigh⟩
  · subst hn0
    rw [hisqrt, hsh, isqrtLoop, if_pos rfl]
    exact ⟨Nat.zero_le 0, by norm_num⟩
  · rw [hisqrt, hsh]
    have h3 : n < (0 + 2 ^ (m + 1)) * (0 + 2 ^ (m + 1)) := by
      rw [Nat.zero_add, hp4 m]
      exact hhigh
    obtain ⟨r, hr, hr1, hr2⟩ :=
      isqrtLoop_spec m (by omega) n 0 (Nat.zero_mod _) (by simp) h3 hn
    simp only [Nat.zero_mul, Nat.sub_zero] at hr
    rw [hr]
    exact ⟨hr1, hr2⟩

/-- Witness for C10 at `n = 1234567890` (the input used by `main`). -/
theorem isqrt_spec_witness :
    1234567890 < 2 ^ 32
    ∧ isqrt 1234567890 * isqrt 1234567890 ≤ 1234567890
    ∧ 1234567890 < (isqrt 1234567890 + 1) * (isqrt 1234567890 + 1) :=
  ⟨by norm_num, isqrt_spec 1234567890 (by norm_num)⟩
